import Mathlib

/-!
Verification of the KRR romanization codec (krr.py).

Strings are modelled as lists of Unicode code points (`List Nat`), the
representation Python exposes: a Python `str` is a sequence of code points.
Every definition in the `KRR` namespace is a direct translation of the
corresponding construct in `src/krr.py`; definitions whose doc comment says
they are modelled from a claim or spec sentence are the comparison side of a
refinement theorem and are never used by the code model itself.
-/

namespace KRR

/-- `SEPARATOR = "\\"` from krr.py line 23: the single code point 92. -/
def SEPARATOR : Nat := 92

/-- The 19 onset tokens (`INITIALS` in krr.py), as lists of code points.
Tokens use g=103, backtick=96, n=110, d=100, l=108, m=109, b=98, s=115,
j=106, c=99, h=104, k=107, t=116, p=112. -/
def INITIALS : List (List Nat) :=
  [[103], [103,96], [110], [100], [100,96], [108], [109], [98], [98,96], [115],
   [115,96], [], [106], [106,96], [99,104], [107], [116], [112], [104]]

/-- The 21 nucleus tokens (`MEDIALS` in krr.py). Vowel letters:
a=97, ä=228, y=121, u=117, è=232, o=111, w=119, ö=246, i=105, ü=252,
e=101, tilde=126. -/
def MEDIALS : List (List Nat) :=
  [[97], [228], [121,97], [121,228], [117], [232], [121,117], [121,232], [111], [119,97],
   [119,228], [246], [121,111], [111,111], [252], [119,232], [119,105], [121,111,111],
   [101,126], [101,126,105], [105]]

/-- The 28 coda tokens (`FINALS` in krr.py). -/
def FINALS : List (List Nat) :=
  [[], [103], [103,96], [103,115], [110], [110,106], [110,104], [100], [108], [108,103],
   [108,109], [108,98], [108,115], [108,116], [108,112], [108,104], [109], [98], [98,115],
   [115], [115,96], [110,103,126], [106], [99,104], [107], [116], [112], [104]]

/-- `INITIAL_MAP` from krr.py: the inverse dictionary of `INITIALS`.
The tokens are pairwise distinct, so the dictionary maps a token to its
(unique) index; absent keys are `none` (Python: `in` test fails). -/
def INITIAL_MAP (s : List Nat) : Option Nat :=
  if INITIALS.contains s then some (List.indexOf s INITIALS) else none

/-- `MEDIAL_MAP` from krr.py. -/
def MEDIAL_MAP (s : List Nat) : Option Nat :=
  if MEDIALS.contains s then some (List.indexOf s MEDIALS) else none

/-- `FINAL_MAP` from krr.py. -/
def FINAL_MAP (s : List Nat) : Option Nat :=
  if FINALS.contains s then some (List.indexOf s FINALS) else none

/-- One insertion step of a stable insertion sort by descending length:
`x` is placed before the first element that is not longer than it, so
earlier elements of the original list precede later ties. -/
def insDesc (x : List Nat) : List (List Nat) → List (List Nat)
  | [] => [x]
  | y :: ys => if y.length ≤ x.length then x :: y :: ys else y :: insDesc x ys

/-- Stable sort by descending length, modelling Python's
`sorted(MEDIALS, key=len, reverse=True)` (Python's sort is stable). -/
def sortLenDesc : List (List Nat) → List (List Nat)
  | [] => []
  | x :: xs => insDesc x (sortLenDesc xs)

/-- `_SORTED_MEDIALS` from krr.py line 55: the nucleus tokens sorted by
length, descending, ties in original table order. -/
def SORTED_MEDIALS : List (List Nat) := sortLenDesc MEDIALS

/-- `onset = code // 588` from krr.py line 82. -/
def onsetIdx (code : Nat) : Nat := code / 588

/-- `nucleus = (code % 588) // 28` from krr.py line 83. -/
def nucleusIdx (code : Nat) : Nat := (code % 588) / 28

/-- `coda = code % 28` from krr.py line 84. -/
def codaIdx (code : Nat) : Nat := code % 28

/-- The per-character body of `encode`'s loop (krr.py lines 77-89):
a code point in [0xAC00, 0xD7A3] is decomposed and rendered as
onset token ++ nucleus token ++ coda token; anything else passes
through as a one-character block. -/
def encodeChar (c : Nat) : List Nat :=
  if 44032 ≤ c ∧ c ≤ 55203 then
    INITIALS.getD (onsetIdx (c - 44032)) [] ++
      (MEDIALS.getD (nucleusIdx (c - 44032)) [] ++ FINALS.getD (codaIdx (c - 44032)) [])
  else [c]

/-- Python `SEPARATOR.join(result)`: blocks joined with a single 92
between consecutive blocks, none at either end. -/
def joinSep : List (List Nat) → List Nat
  | [] => []
  | [b] => b
  | b :: b2 :: bs => b ++ SEPARATOR :: joinSep (b2 :: bs)

/-- `encode` from krr.py lines 62-92. -/
def encode (t : List Nat) : List Nat := joinSep (t.map encodeChar)

/-- The character class stripped by `text.strip('"\'')`: double quote 34
and single quote 39. -/
def isQuote (c : Nat) : Bool := c == 34 || c == 39

/-- Python `text.strip('"\'')` (krr.py line 109): remove every leading and
every trailing character belonging to the quote class. -/
def strip (t : List Nat) : List Nat :=
  ((t.dropWhile isQuote).reverse.dropWhile isQuote).reverse

/-- Python `text.replace(" ", f"{SEPARATOR} {SEPARATOR}")` (krr.py line 113):
every space 32 becomes the three code points 92, 32, 92. -/
def replaceSpace : List Nat → List Nat
  | [] => []
  | c :: rest => (if c = 32 then [92, 32, 92] else [c]) ++ replaceSpace rest

/-- Python `text.split(SEPARATOR)` (krr.py line 115) for the one-character
separator 92: the (possibly empty) fragments between occurrences of 92. -/
def splitSep : List Nat → List (List Nat)
  | [] => [[]]
  | c :: rest =>
    match splitSep rest with
    | [] => [[]]
    | b :: bs => if c = 92 then [] :: b :: bs else (c :: b) :: bs

/-- Python `pat in s` / `s.partition(pat)`: index of the first occurrence
of `pat` as a contiguous substring of `s`, if any. -/
def findSub (pat : List Nat) : List Nat → Option Nat
  | [] => if pat.isEmpty then some 0 else none
  | c :: rest =>
    if pat.isPrefixOf (c :: rest) then some 0 else (findSub pat rest).map (· + 1)

/-- One iteration of `decode`'s vowel loop (krr.py lines 124-138): if the
vowel occurs in the block, partition at its first occurrence and validate
the onset and coda against the inverse maps; on success recompose the code
point `0xAC00 + onset*588 + nucleus*28 + coda`. -/
def tryVowel (b v : List Nat) : Option Nat :=
  match findSub v b with
  | none => none
  | some i =>
    match INITIAL_MAP (b.take i), MEDIAL_MAP v, FINAL_MAP (b.drop (i + v.length)) with
    | some o, some n, some k => some (44032 + o * 588 + n * 28 + k)
    | _, _, _ => none

/-- The vowel loop of `decode` (krr.py lines 123-138): first vowel of the
scan order whose first-occurrence partition validates wins. -/
def scanVowels (b : List Nat) : List (List Nat) → Option Nat
  | [] => none
  | v :: vs =>
    match tryVowel b v with
    | some cp => some cp
    | none => scanVowels b vs

/-- Decoding of one non-empty block: greedy scan over `SORTED_MEDIALS`. -/
def decodeBlock (b : List Nat) : Option Nat := scanVowels b SORTED_MEDIALS

/-- What `decode` appends for one non-empty block: the recomposed syllable
on success, the block itself on failure (krr.py lines 136-141). -/
def processBlock (b : List Nat) : List Nat :=
  match decodeBlock b with
  | some cp => [cp]
  | none => b

/-- The block loop of `decode` (krr.py lines 117-141): empty blocks are
skipped, the rest are processed, and the results concatenated in order. -/
def decodeLoop : List (List Nat) → List Nat
  | [] => []
  | b :: bs => (if b = [] then [] else processBlock b) ++ decodeLoop bs

/-- `decode` from krr.py lines 95-143. -/
def decode (t : List Nat) : List Nat :=
  decodeLoop (splitSep (replaceSpace (strip t)))

/-- The block sequence `decode` iterates over, before empty blocks are
skipped (krr.py lines 108-115). -/
def blocksOf (t : List Nat) : List (List Nat) := splitSep (replaceSpace (strip t))

/-- The non-empty blocks a text is parsed into when spaces and the
separator both act as delimiters (quote stripping not applied). -/
def nonEmptyBlocks (t : List Nat) : List (List Nat) :=
  (splitSep (replaceSpace t)).filter (fun b => b ≠ [])

/-- Modelled from the claim text of C3: the per-character block of `encode`
stated independently — `Onset[(cp-0xAC00)/588] ++ Nucleus[((cp-0xAC00)%588)/28]
++ Coda[(cp-0xAC00)%28]` for a syllabic code point, the character itself
otherwise. -/
def claimBlockC3 (c : Nat) : List Nat :=
  if 44032 ≤ c ∧ c ≤ 55203 then
    INITIALS.getD ((c - 44032) / 588) [] ++
      MEDIALS.getD (((c - 44032) % 588) / 28) [] ++ FINALS.getD ((c - 44032) % 28) []
  else [c]

/-- Modelled from the claim text of C4: a nucleus candidate is accepted when
it occurs in the block and the prefix before its first occurrence is a valid
onset token while the suffix after it is a valid coda token. -/
def validCand (b v : List Nat) : Bool :=
  match findSub v b with
  | none => false
  | some i => INITIALS.contains (b.take i) && FINALS.contains (b.drop (i + v.length))

/-- Modelled from the claim text of C4: the code point recomposed from the
accepted candidate's partition, `0xAC00 + onset*588 + nucleus*28 + coda`. -/
def recompose (b v : List Nat) : Nat :=
  match findSub v b with
  | none => 0
  | some i =>
    44032 + List.indexOf (b.take i) INITIALS * 588 + List.indexOf v MEDIALS * 28 +
      List.indexOf (b.drop (i + v.length)) FINALS

/-- Modelled from the claim text of C4: the block decoder described by the
claim — the first candidate of the length-descending scan order that occurs
in the block and validates is accepted, and its partition recomposed. -/
def claimDecodeC4 (b : List Nat) : Option Nat :=
  (SORTED_MEDIALS.find? (validCand b)).map (recompose b)

/-- Characters appearing in any token of any table. -/
def tokenChars : List Nat :=
  [103, 96, 110, 100, 108, 109, 98, 115, 106, 99, 104, 107, 116, 112,
   97, 228, 121, 117, 232, 111, 119, 246, 105, 252, 101, 126]

/-- Characters appearing in coda tokens. -/
def codaChars : List Nat :=
  [103, 96, 115, 110, 106, 104, 100, 108, 109, 98, 116, 112, 126, 99, 107]

/-- Characters appearing in nucleus (vowel) tokens. -/
def vowelChars : List Nat := [97, 228, 121, 117, 232, 111, 119, 246, 105, 252, 101, 126]

/-- The eight one-character nucleus tokens. -/
def vowelSingles : List Nat := [97, 228, 117, 232, 111, 246, 252, 105]

-- ==========================================
-- Concrete table facts (all decidable)
-- ==========================================

theorem INITIALS_length : INITIALS.length = 19 := by decide

theorem MEDIALS_length : MEDIALS.length = 21 := by decide

theorem FINALS_length : FINALS.length = 28 := by decide

/-- The sorted medial list, computed: length descending, ties in table order. -/
theorem SORTED_MEDIALS_eq : SORTED_MEDIALS =
    [[121,111,111], [101,126,105], [121,97], [121,228], [121,117], [121,232], [119,97],
     [119,228], [121,111], [111,111], [119,232], [119,105], [101,126],
     [97], [228], [117], [232], [111], [246], [252], [105]] := by decide

theorem initialMap_getD : ∀ o < 19, INITIAL_MAP (INITIALS.getD o []) = some o := by decide

theorem medialMap_getD : ∀ n < 21, MEDIAL_MAP (MEDIALS.getD n []) = some n := by decide

theorem finalMap_getD : ∀ k < 28, FINAL_MAP (FINALS.getD k []) = some k := by decide

theorem medials_ne_nil : ∀ m ∈ MEDIALS, m ≠ [] := by decide

theorem sorted_ne_nil : ∀ v ∈ SORTED_MEDIALS, v ≠ [] := by decide

theorem mem_sorted_of_mem_medials : ∀ m ∈ MEDIALS, m ∈ SORTED_MEDIALS := by decide

theorem mem_medials_of_mem_sorted : ∀ v ∈ SORTED_MEDIALS, v ∈ MEDIALS := by decide

theorem token_chars_closed :
    ∀ b ∈ INITIALS ++ (MEDIALS ++ FINALS), ∀ x ∈ b, x ∈ tokenChars := by decide

theorem tokenChars_clean : ∀ x ∈ tokenChars, x ≠ 32 ∧ x ≠ 92 ∧ isQuote x = false := by decide

theorem coda_chars_closed : ∀ f ∈ FINALS, ∀ x ∈ f, x ∈ codaChars := by decide

theorem vowel_chars_closed : ∀ v ∈ SORTED_MEDIALS, ∀ x ∈ v, x ∈ vowelChars := by decide

theorem vowel_coda_tilde : ∀ x ∈ vowelChars, x ∈ codaChars → x = 126 := by decide

theorem vowel_not_all_coda : ∀ v ∈ SORTED_MEDIALS, ∃ x ∈ v, x ∉ codaChars := by decide

theorem vowel_head_not_onset :
    ∀ v ∈ SORTED_MEDIALS, ∀ ons ∈ INITIALS, ∀ c ∈ ons, v.head? ≠ some c := by decide

theorem vowel_tilde_split :
    ∀ v ∈ SORTED_MEDIALS, ∀ j ∈ List.range v.length,
      ((v.drop j).head? = some 126 → v.take j = [101]) := by decide

theorem medials_no_last_e : ∀ m ∈ MEDIALS, m.getLast? ≠ some 101 := by decide

theorem sorted_earlier_longer :
    ∀ m ∈ MEDIALS, ∀ v ∈ SORTED_MEDIALS.takeWhile (fun x => x != m), m.length ≤ v.length := by
  decide

theorem sorted_single_vowels :
    ∀ v ∈ SORTED_MEDIALS, 2 ≤ v.length ∨ ∃ c ∈ vowelSingles, v = [c] := by
  decide

-- ==========================================
-- Generic helper lemmas
-- ==========================================

theorem getD_mem_of_lt {l : List (List Nat)} {i : Nat} (h : i < l.length) :
    l.getD i [] ∈ l := by
  rw [List.getD_eq_getElem?_getD, List.getElem?_eq_getElem h]
  exact List.getElem_mem h

theorem findSub_none_iff (pat : List Nat) :
    ∀ s : List Nat, findSub pat s = none ↔ ¬ pat <:+: s := by
  intro s
  induction s with
  | nil =>
    by_cases hp : pat = []
    · subst hp
      have h0 : ([] : List Nat) <:+: [] := List.infix_refl []
      simp [findSub, List.isEmpty, h0]
    · have he : pat.isEmpty = false := by simp [List.isEmpty_iff, hp]
      simp only [findSub, he, Bool.false_eq_true, if_false]
      constructor
      · intro _ hinf
        have hl := hinf.length_le
        simp at hl
        exact hp hl
      · intro _; trivial
  | cons c rest ih =>
    by_cases hpre : pat.isPrefixOf (c :: rest)
    · have h2 : pat <:+: c :: rest := (List.isPrefixOf_iff_prefix.mp hpre).isInfix
      simp [findSub, hpre, h2]
    · have hnp : ¬ pat <+: c :: rest := fun h => hpre (List.isPrefixOf_iff_prefix.mpr h)
      have heq : findSub pat (c :: rest) = (findSub pat rest).map (· + 1) := by
        rw [findSub]; simp [hpre]
      rw [heq, Option.map_eq_none', ih, List.infix_cons_iff]
      constructor
      · intro h hor
        rcases hor with hh | hh
        · exact hnp hh
        · exact h hh
      · intro h hh
        exact h (Or.inr hh)

theorem findSub_self (pat Y : List Nat) (hp : pat ≠ []) :
    findSub pat (pat ++ Y) = some 0 := by
  rcases pat with _ | ⟨p, pt⟩
  · exact absurd rfl hp
  · have : (p :: pt).isPrefixOf ((p :: pt) ++ Y) = true :=
      List.isPrefixOf_iff_prefix.mpr (List.prefix_append _ _)
    simp [findSub, this]

theorem findSub_shift (pat Y : List Nat) (hp : pat ≠ []) :
    ∀ X : List Nat, (∀ c ∈ X, pat.head? ≠ some c) →
      findSub pat (X ++ Y) = (findSub pat Y).map (· + X.length) := by
  intro X
  induction X with
  | nil =>
    intro _
    show findSub pat ([] ++ Y) = (findSub pat Y).map (· + ([] : List Nat).length)
    cases h : findSub pat Y <;> simp [h]
  | cons x X ih =>
    intro hx
    rcases pat with _ | ⟨p, pt⟩
    · exact absurd rfl hp
    · have hpx : p ≠ x := by
        intro he
        exact hx x (List.mem_cons_self x X) (by rw [he]; rfl)
      have hnotpre : (p :: pt).isPrefixOf (x :: (X ++ Y)) = false := by
        simp [List.isPrefixOf, beq_eq_false_iff_ne, hpx]
      have hrec := ih (fun c hc => hx c (List.mem_cons_of_mem x hc))
      show findSub (p :: pt) ((x :: X) ++ Y) = _
      rw [List.cons_append]
      rw [findSub, hnotpre]
      simp only [Bool.false_eq_true, if_false, hrec]
      cases h : findSub (p :: pt) Y <;> simp [h, List.length_cons] <;> omega

theorem prefix_append_cases {v Y : List Nat} :
    ∀ Z : List Nat, v <+: Z ++ Y → v <+: Z ∨ ∃ w, v = Z ++ w ∧ w <+: Y := by
  intro Z
  induction Z generalizing v with
  | nil =>
    intro h
    exact Or.inr ⟨v, rfl, h⟩
  | cons z Z ih =>
    intro h
    rw [List.cons_append, List.prefix_cons_iff] at h
    rcases h with h | ⟨t, rfl, ht⟩
    · subst h; exact Or.inl List.nil_prefix
    · rcases ih ht with h1 | ⟨w, rfl, hw⟩
      · exact Or.inl (List.prefix_cons_iff.mpr (Or.inr ⟨t, rfl, h1⟩))
      · exact Or.inr ⟨w, by simp, hw⟩

theorem infix_append_split {v Y : List Nat} :
    ∀ X : List Nat, v <:+: X ++ Y →
      v <:+: X ∨ v <:+: Y ∨
        ∃ j, 0 < j ∧ j < v.length ∧ v.take j <:+ X ∧ v.drop j <+: Y := by
  intro X
  induction X generalizing v with
  | nil =>
    intro h; exact Or.inr (Or.inl h)
  | cons x X ih =>
    intro h
    rw [List.cons_append, List.infix_cons_iff] at h
    rcases h with h | h
    · rcases prefix_append_cases (x :: X) (by simpa using h) with h1 | ⟨w, rfl, hw⟩
      · exact Or.inl h1.isInfix
      · by_cases hw0 : w = []
        · subst hw0
          exact Or.inl (by simpa using List.infix_refl (x :: X))
        · refine Or.inr (Or.inr ⟨(x :: X).length, by simp, ?_, ?_, ?_⟩)
          · simp [List.length_append]
            have : 0 < w.length := List.length_pos.mpr hw0
            omega
          · rw [List.take_left]
          · rw [List.drop_left]; exact hw
    · rcases ih h with h1 | h2 | ⟨j, hj0, hjl, hsuf, hpre⟩
      · exact Or.inl (List.infix_cons_iff.mpr (Or.inr h1))
      · exact Or.inr (Or.inl h2)
      · exact Or.inr (Or.inr ⟨j, hj0, hjl, hsuf.trans (List.suffix_cons x X), hpre⟩)

theorem head?_mem {l : List Nat} {c : Nat} (h : l.head? = some c) : c ∈ l := by
  cases l with
  | nil => simp at h
  | cons a t => simp at h; subst h; exact List.mem_cons_self a t

theorem mem_of_append_drop {v : List Nat} {j : Nat} {c : Nat}
    (h : (v.drop j).head? = some c) : c ∈ v :=
  List.drop_subset j v (head?_mem h)

-- ==========================================
-- The vowel scan on an encoded block
-- ==========================================

theorem scanVowels_cons (b v : List Nat) (vs : List (List Nat)) :
    scanVowels b (v :: vs) =
      match tryVowel b v with
      | some cp => some cp
      | none => scanVowels b vs := rfl

theorem scanVowels_append_none (b : List Nat) {xs : List (List Nat)}
    (h : ∀ v ∈ xs, tryVowel b v = none) (ys : List (List Nat)) :
    scanVowels b (xs ++ ys) = scanVowels b ys := by
  induction xs with
  | nil => rfl
  | cons v vs ih =>
    rw [List.cons_append]
    have hv := h v (List.mem_cons_self v vs)
    simp only [scanVowels, hv]
    exact ih (fun w hw => h w (List.mem_cons_of_mem v hw))

theorem scanVowels_none (b : List Nat) :
    ∀ vs, (∀ v ∈ vs, tryVowel b v = none) → scanVowels b vs = none := by
  intro vs h
  induction vs with
  | nil => rfl
  | cons v ws ih =>
    have hv := h v (List.mem_cons_self v ws)
    simp only [scanVowels, hv]
    exact ih (fun w hw => h w (List.mem_cons_of_mem v hw))

theorem split_at_mem {a : List Nat} {l : List (List Nat)} (h : a ∈ l) :
    ∃ post, l = l.takeWhile (fun x => x != a) ++ a :: post := by
  induction l with
  | nil => cases h
  | cons x xs ih =>
    by_cases hx : x = a
    · subst hx
      exact ⟨xs, by simp [List.takeWhile_cons]⟩
    · have ha : a ∈ xs := by
        rcases List.mem_cons.mp h with h1 | h1
        · exact absurd h1.symm hx
        · exact h1
      obtain ⟨post, hp⟩ := ih ha
      refine ⟨post, ?_⟩
      have hb : (x != a) = true := bne_iff_ne.mpr hx
      rw [List.takeWhile_cons, hb]
      simpa using congrArg (fun t => x :: t) hp

theorem tryVowel_ok {o n k : Nat} (ho : o < 19) (hn : n < 21) (hk : k < 28) :
    tryVowel (INITIALS.getD o [] ++ (MEDIALS.getD n [] ++ FINALS.getD k []))
      (MEDIALS.getD n []) = some (44032 + o * 588 + n * 28 + k) := by
  set O := INITIALS.getD o [] with hO
  set N := MEDIALS.getD n [] with hN
  set C := FINALS.getD k [] with hC
  have hNmem : N ∈ MEDIALS := getD_mem_of_lt (by rw [MEDIALS_length]; omega)
  have hNS : N ∈ SORTED_MEDIALS := mem_sorted_of_mem_medials N hNmem
  have hNne : N ≠ [] := medials_ne_nil N hNmem
  have hOmem : O ∈ INITIALS := getD_mem_of_lt (by rw [INITIALS_length]; omega)
  have hhead : ∀ c ∈ O, N.head? ≠ some c :=
    fun c hc => vowel_head_not_onset N hNS O hOmem c hc
  have hfind : findSub N (O ++ (N ++ C)) = some O.length := by
    rw [findSub_shift N (N ++ C) hNne O hhead, findSub_self N C hNne]
    simp
  have htake : (O ++ (N ++ C)).take O.length = O := List.take_left O (N ++ C)
  have hdrop : (O ++ (N ++ C)).drop (O.length + N.length) = C := by
    rw [← List.drop_drop, List.drop_left, List.drop_left]
  simp only [tryVowel, hfind, htake, hdrop,
    initialMap_getD o ho, medialMap_getD n hn, finalMap_getD k hk]

theorem tryVowel_pre_none {o n k : Nat} (ho : o < 19) (hn : n < 21) (hk : k < 28)
    {v : List Nat}
    (hv : v ∈ SORTED_MEDIALS.takeWhile (fun x => x != MEDIALS.getD n [])) :
    tryVowel (INITIALS.getD o [] ++ (MEDIALS.getD n [] ++ FINALS.getD k [])) v = none := by
  set O := INITIALS.getD o [] with hO
  set N := MEDIALS.getD n [] with hN
  set C := FINALS.getD k [] with hC
  have hNmem : N ∈ MEDIALS := getD_mem_of_lt (by rw [MEDIALS_length]; omega)
  have hOmem : O ∈ INITIALS := getD_mem_of_lt (by rw [INITIALS_length]; omega)
  have hCF : C ∈ FINALS := getD_mem_of_lt (by rw [FINALS_length]; omega)
  have hvS : v ∈ SORTED_MEDIALS := List.takeWhile_subset _ hv
  have hvne : v ≠ [] := sorted_ne_nil v hvS
  have hvN : v ≠ N := by
    have hb := List.mem_takeWhile_imp hv
    simpa using hb
  have hlen : N.length ≤ v.length := sorted_earlier_longer N hNmem v hv
  have hnone : findSub v (O ++ (N ++ C)) = none := by
    rw [findSub_shift v (N ++ C) hvne O
      (fun c hc => vowel_head_not_onset v hvS O hOmem c hc)]
    have hmid : findSub v (N ++ C) = none := by
      rw [findSub_none_iff]
      intro hinf
      rcases infix_append_split N hinf with h1 | h2 | ⟨j, hj0, hjl, hsuf, hpre⟩
      · exact hvN (h1.eq_of_length (le_antisymm h1.length_le hlen))
      · obtain ⟨x, hxv, hxc⟩ := vowel_not_all_coda v hvS
        exact hxc (coda_chars_closed C hCF x (h2.subset hxv))
      · have hdne : v.drop j ≠ [] := by
          intro hde
          rw [List.drop_eq_nil_iff_le] at hde
          omega
        obtain ⟨c2, hc2⟩ : ∃ c2, (v.drop j).head? = some c2 := by
          cases hd : v.drop j with
          | nil => exact absurd hd hdne
          | cons a t => exact ⟨a, rfl⟩
        have hc2C : c2 ∈ C := by
          obtain ⟨r, hr⟩ := hpre
          have : C.head? = some c2 := by
            rw [← hr, List.head?_append, hc2]
            rfl
          exact head?_mem this
        have hc2coda : c2 ∈ codaChars := coda_chars_closed C hCF c2 hc2C
        have hc2v : c2 ∈ v := mem_of_append_drop hc2
        have h126 : c2 = 126 :=
          vowel_coda_tilde c2 (vowel_chars_closed v hvS c2 hc2v) hc2coda
        have htake : v.take j = [101] := by
          apply vowel_tilde_split v hvS j (List.mem_range.mpr hjl)
          rw [← h126]
          exact hc2
        rw [htake] at hsuf
        obtain ⟨t, ht⟩ := hsuf
        exact medials_no_last_e N hNmem (by rw [← ht, List.getLast?_concat])
    rw [hmid]
    rfl
  simp [tryVowel, hnone]

/-- The central lemma: the block produced for the syllable with indices
(o, n, k) is decoded back to exactly that syllable. -/
theorem decodeBlock_block {o n k : Nat} (ho : o < 19) (hn : n < 21) (hk : k < 28) :
    decodeBlock (INITIALS.getD o [] ++ (MEDIALS.getD n [] ++ FINALS.getD k [])) =
      some (44032 + o * 588 + n * 28 + k) := by
  have hNS : MEDIALS.getD n [] ∈ SORTED_MEDIALS :=
    mem_sorted_of_mem_medials _ (getD_mem_of_lt (by rw [MEDIALS_length]; omega))
  obtain ⟨post, hsplit⟩ := split_at_mem hNS
  rw [decodeBlock, hsplit,
    scanVowels_append_none _ (fun v hv => tryVowel_pre_none ho hn hk hv) _,
    scanVowels_cons, tryVowel_ok ho hn hk]

/-- Every code point in the syllabic range round-trips through one block. -/
theorem decodeBlock_encodeChar {c : Nat} (h1 : 44032 ≤ c) (h2 : c ≤ 55203) :
    decodeBlock (encodeChar c) = some c := by
  rw [encodeChar, if_pos ⟨h1, h2⟩]
  have ho : onsetIdx (c - 44032) < 19 := by unfold onsetIdx; omega
  have hn : nucleusIdx (c - 44032) < 21 := by unfold nucleusIdx; omega
  have hk : codaIdx (c - 44032) < 28 := by unfold codaIdx; omega
  have harith : 44032 + onsetIdx (c - 44032) * 588 + nucleusIdx (c - 44032) * 28 +
      codaIdx (c - 44032) = c := by
    unfold onsetIdx nucleusIdx codaIdx
    omega
  rw [decodeBlock_block ho hn hk, harith]

-- ==========================================
-- Pipeline lemmas: split, replace, join, strip
-- ==========================================

theorem splitSep_ne_nil : ∀ t : List Nat, splitSep t ≠ [] := by
  intro t
  cases t with
  | nil => simp [splitSep]
  | cons c rest =>
    rw [splitSep]
    cases h : splitSep rest with
    | nil => simp
    | cons b bs =>
      by_cases hc : c = 92 <;> simp [hc]

theorem splitSep_cons_sep (y : List Nat) : splitSep (92 :: y) = [] :: splitSep y := by
  rw [splitSep]
  cases h : splitSep y with
  | nil => exact absurd h (splitSep_ne_nil y)
  | cons b bs => simp

theorem splitSep_cons_ne {c : Nat} (hc : c ≠ 92) (y : List Nat) :
    splitSep (c :: y) =
      (c :: (splitSep y).headI) :: (splitSep y).tail := by
  rw [splitSep]
  cases h : splitSep y with
  | nil => exact absurd h (splitSep_ne_nil y)
  | cons b bs => simp [hc]

theorem splitSep_append_sep : ∀ x y : List Nat, splitSep (x ++ 92 :: y) = splitSep x ++ splitSep y := by
  intro x y
  induction x with
  | nil =>
    show splitSep (92 :: y) = splitSep [] ++ splitSep y
    rw [splitSep_cons_sep]
    rfl
  | cons c rest ih =>
    by_cases hc : c = 92
    · subst hc
      rw [List.cons_append, splitSep_cons_sep, splitSep_cons_sep, ih]
      rfl
    · rw [List.cons_append, splitSep_cons_ne hc, splitSep_cons_ne hc, ih]
      cases h : splitSep rest with
      | nil => exact absurd h (splitSep_ne_nil rest)
      | cons b bs => simp

theorem splitSep_no_sep : ∀ b : List Nat, 92 ∉ b → splitSep b = [b] := by
  intro b
  induction b with
  | nil => intro _; rfl
  | cons c rest ih =>
    intro h
    have hc : c ≠ 92 := fun he => h (he ▸ List.mem_cons_self c rest)
    have hr : 92 ∉ rest := fun hm => h (List.mem_cons_of_mem c hm)
    rw [splitSep_cons_ne hc, ih hr]
    rfl

theorem splitSep_mem_no_sep : ∀ t : List Nat, ∀ b ∈ splitSep t, 92 ∉ b := by
  intro t
  induction t with
  | nil =>
    intro b hb
    simp [splitSep] at hb
    simp [hb]
  | cons c rest ih =>
    intro b hb
    by_cases hc : c = 92
    · subst hc
      rw [splitSep_cons_sep] at hb
      rcases List.mem_cons.mp hb with h1 | h1
      · simp [h1]
      · exact ih b h1
    · rw [splitSep_cons_ne hc] at hb
      rcases List.mem_cons.mp hb with h1 | h1
      · subst h1
        intro hm
        rcases List.mem_cons.mp hm with h2 | h2
        · exact hc h2.symm
        · cases hsp : splitSep rest with
          | nil => exact absurd hsp (splitSep_ne_nil rest)
          | cons b0 bs =>
            apply ih b0 (by rw [hsp]; exact List.mem_cons_self b0 bs)
            rw [hsp] at h2
            simpa using h2
      · exact ih b (List.mem_of_mem_tail h1)

theorem replaceSpace_append : ∀ x y : List Nat,
    replaceSpace (x ++ y) = replaceSpace x ++ replaceSpace y := by
  intro x y
  induction x with
  | nil => rfl
  | cons c rest ih =>
    rw [List.cons_append, replaceSpace, replaceSpace, ih, List.append_assoc]

theorem replaceSpace_no_space : ∀ b : List Nat, 32 ∉ b → replaceSpace b = b := by
  intro b
  induction b with
  | nil => intro _; rfl
  | cons c rest ih =>
    intro h
    have hc : c ≠ 32 := fun he => h (he ▸ List.mem_cons_self c rest)
    have hr : 32 ∉ rest := fun hm => h (List.mem_cons_of_mem c hm)
    rw [replaceSpace, ih hr, if_neg hc]
    rfl

theorem decodeLoop_append : ∀ bs1 bs2 : List (List Nat),
    decodeLoop (bs1 ++ bs2) = decodeLoop bs1 ++ decodeLoop bs2 := by
  intro bs1 bs2
  induction bs1 with
  | nil => rfl
  | cons b bs ih =>
    rw [List.cons_append, decodeLoop, decodeLoop, ih, List.append_assoc]

theorem joinSep_cons {bs : List (List Nat)} (h : bs ≠ []) (b : List Nat) :
    joinSep (b :: bs) = b ++ SEPARATOR :: joinSep bs := by
  cases bs with
  | nil => exact absurd rfl h
  | cons b2 rest => rfl

theorem mem_joinSep : ∀ bs : List (List Nat), ∀ x ∈ joinSep bs,
    x = 92 ∨ ∃ b ∈ bs, x ∈ b := by
  intro bs
  induction bs with
  | nil => intro x hx; cases hx
  | cons b rest ih =>
    intro x hx
    cases rest with
    | nil =>
      right
      exact ⟨b, List.mem_cons_self b [], by simpa [joinSep] using hx⟩
    | cons b2 rest2 =>
      rw [joinSep_cons (by simp) b] at hx
      rcases List.mem_append.mp hx with h1 | h1
      · exact Or.inr ⟨b, List.mem_cons_self b _, h1⟩
      · rcases List.mem_cons.mp h1 with h2 | h2
        · exact Or.inl h2
        · rcases ih x h2 with h3 | ⟨b3, hb3, hxb3⟩
          · exact Or.inl h3
          · exact Or.inr ⟨b3, List.mem_cons_of_mem b hb3, hxb3⟩

theorem dropWhile_id_of_head {p : Nat → Bool} : ∀ t : List Nat,
    (∀ c, t.head? = some c → p c = false) → t.dropWhile p = t := by
  intro t h
  cases t with
  | nil => rfl
  | cons c rest =>
    have := h c rfl
    simp [List.dropWhile_cons, this]

theorem strip_eq_self_of_ends {t : List Nat}
    (hh : ∀ c, t.head? = some c → isQuote c = false)
    (hl : ∀ c, t.getLast? = some c → isQuote c = false) : strip t = t := by
  rw [strip, dropWhile_id_of_head t hh]
  rw [dropWhile_id_of_head t.reverse (fun c hc => hl c (by rwa [List.head?_reverse] at hc))]
  exact List.reverse_reverse t

theorem strip_eq_self_of_all {t : List Nat}
    (h : ∀ x ∈ t, isQuote x = false) : strip t = t :=
  strip_eq_self_of_ends
    (fun c hc => h c (head?_mem hc))
    (fun c hc => h c (List.mem_of_mem_getLast? hc))

-- ==========================================
-- Characters of encoded blocks
-- ==========================================

theorem encodeChar_hangul_chars {c : Nat} (h1 : 44032 ≤ c) (h2 : c ≤ 55203) :
    ∀ x ∈ encodeChar c, x ∈ tokenChars := by
  intro x hx
  rw [encodeChar, if_pos ⟨h1, h2⟩] at hx
  have ho : onsetIdx (c - 44032) < INITIALS.length := by
    rw [INITIALS_length]; unfold onsetIdx; omega
  have hn : nucleusIdx (c - 44032) < MEDIALS.length := by
    rw [MEDIALS_length]; unfold nucleusIdx; omega
  have hk : codaIdx (c - 44032) < FINALS.length := by
    rw [FINALS_length]; unfold codaIdx; omega
  rcases List.mem_append.mp hx with h | h
  · exact token_chars_closed _ (List.mem_append.mpr (Or.inl (getD_mem_of_lt ho))) x h
  · rcases List.mem_append.mp h with h | h
    · exact token_chars_closed _
        (List.mem_append.mpr (Or.inr (List.mem_append.mpr (Or.inl (getD_mem_of_lt hn))))) x h
    · exact token_chars_closed _
        (List.mem_append.mpr (Or.inr (List.mem_append.mpr (Or.inr (getD_mem_of_lt hk))))) x h

theorem encodeChar_ne_nil (c : Nat) : encodeChar c ≠ [] := by
  rw [encodeChar]
  by_cases h : 44032 ≤ c ∧ c ≤ 55203
  · rw [if_pos h]
    have hn : nucleusIdx (c - 44032) < MEDIALS.length := by
      rw [MEDIALS_length]; unfold nucleusIdx; omega
    have hne := medials_ne_nil _ (getD_mem_of_lt hn)
    intro hcon
    rcases List.append_eq_nil.mp hcon with ⟨_, h2⟩
    rcases List.append_eq_nil.mp h2 with ⟨h3, _⟩
    exact hne h3
  · rw [if_neg h]
    simp

-- ==========================================
-- Round-trip core
-- ==========================================

theorem decodeBlock_single_none {c : Nat} (hns : c ∉ vowelSingles) :
    decodeBlock [c] = none := by
  apply scanVowels_none
  intro v hv
  have hnone : findSub v [c] = none := by
    rw [findSub_none_iff]
    intro hinf
    have hle := hinf.length_le
    simp at hle
    rcases sorted_single_vowels v hv with h2 | ⟨c0, hc0, rfl⟩
    · omega
    · have : [c0] = [c] := hinf.eq_of_length (by simp)
      simp at this
      exact hns (this ▸ hc0)
  simp [tryVowel, hnone]

theorem perChar {c : Nat} (h92 : c ≠ 92) (hns : c ∉ vowelSingles) :
    decodeLoop (splitSep (replaceSpace (encodeChar c))) = [c] := by
  by_cases hh : 44032 ≤ c ∧ c ≤ 55203
  · have hchars := encodeChar_hangul_chars hh.1 hh.2
    have h32m : 32 ∉ encodeChar c :=
      fun hm => (tokenChars_clean _ (hchars _ hm)).1 rfl
    have h92m : 92 ∉ encodeChar c :=
      fun hm => (tokenChars_clean _ (hchars _ hm)).2.1 rfl
    rw [replaceSpace_no_space _ h32m, splitSep_no_sep _ h92m]
    simp only [decodeLoop, if_neg (encodeChar_ne_nil c), processBlock,
      decodeBlock_encodeChar hh.1 hh.2]
    simp
  · have henc : encodeChar c = [c] := by rw [encodeChar, if_neg hh]
    by_cases h32 : c = 32
    · subst h32
      rw [henc]
      decide
    · rw [henc, replaceSpace_no_space _ (by simp; omega), splitSep_no_sep _ (by simp; omega)]
      simp only [decodeLoop, processBlock, decodeBlock_single_none hns]
      simp

theorem roundtrip_core : ∀ s : List Nat, (∀ c ∈ s, c ≠ 92 ∧ c ∉ vowelSingles) →
    decodeLoop (splitSep (replaceSpace (encode s))) = s := by
  intro s
  induction s with
  | nil => intro _; rfl
  | cons c s' ih =>
    intro h
    have hc := h c (List.mem_cons_self c s')
    cases s' with
    | nil => exact perChar hc.1 hc.2
    | cons c2 rest =>
      have hjoin : encode (c :: c2 :: rest) =
          encodeChar c ++ 92 :: encode (c2 :: rest) := by
        rw [encode, List.map_cons, joinSep_cons (by simp)]
        rfl
      have hrep92 : replaceSpace (92 :: encode (c2 :: rest)) =
          92 :: replaceSpace (encode (c2 :: rest)) := by
        rw [replaceSpace]
        simp
      rw [hjoin, replaceSpace_append, hrep92, splitSep_append_sep, decodeLoop_append]
      rw [perChar hc.1 hc.2, ih (fun x hx => h x (List.mem_cons_of_mem c hx))]
      rfl

-- ==========================================
-- Ends of the encoded string (for quote stripping)
-- ==========================================

theorem encode_head? (c : Nat) (s : List Nat) :
    (encode (c :: s)).head? = (encodeChar c).head? := by
  obtain ⟨b0, bt, hB⟩ : ∃ b0 bt, encodeChar c = b0 :: bt := by
    cases hE : encodeChar c with
    | nil => exact absurd hE (encodeChar_ne_nil c)
    | cons b0 bt => exact ⟨b0, bt, rfl⟩
  cases s with
  | nil =>
    show (encodeChar c).head? = (encodeChar c).head?
    rfl
  | cons c2 rest =>
    rw [encode, List.map_cons, joinSep_cons (by simp), List.head?_append, hB]
    rfl

theorem encode_ne_nil {s : List Nat} (h : s ≠ []) : encode s ≠ [] := by
  cases s with
  | nil => exact absurd rfl h
  | cons c s' =>
    intro hcon
    have := encode_head? c s'
    rw [hcon] at this
    obtain ⟨b0, bt, hB⟩ : ∃ b0 bt, encodeChar c = b0 :: bt := by
      cases hE : encodeChar c with
      | nil => exact absurd hE (encodeChar_ne_nil c)
      | cons b0 bt => exact ⟨b0, bt, rfl⟩
    rw [hB] at this
    exact Option.noConfusion this

theorem encode_getLast? : ∀ s : List Nat, ∀ c : Nat, s.getLast? = some c →
    (encode s).getLast? = (encodeChar c).getLast? := by
  intro s
  induction s with
  | nil => intro c hc; cases hc
  | cons c0 s' ih =>
    intro c hc
    cases s' with
    | nil =>
      simp at hc
      subst hc
      rfl
    | cons c1 rest =>
      rw [List.getLast?_cons_cons] at hc
      have hE := encode_ne_nil (s := c1 :: rest) (by simp)
      have hjoin : encode (c0 :: c1 :: rest) =
          encodeChar c0 ++ 92 :: encode (c1 :: rest) := by
        rw [encode, List.map_cons, joinSep_cons (by simp)]
        rfl
      rw [hjoin, List.getLast?_append]
      have h9 : (92 :: encode (c1 :: rest)) = [92] ++ encode (c1 :: rest) := rfl
      rw [h9, List.getLast?_append, ih c hc]
      obtain ⟨y, hy⟩ : ∃ y, (encodeChar c).getLast? = some y := by
        cases hE2 : encodeChar c with
        | nil => exact absurd hE2 (encodeChar_ne_nil c)
        | cons b0 bt => exact ⟨(b0 :: bt).getLast (by simp), List.getLast?_eq_getLast _ _⟩
      rw [hy]
      rfl

-- ==========================================
-- decode's loop as filter + flatMap
-- ==========================================

theorem processBlock_eq_elim (b : List Nat) :
    processBlock b = (decodeBlock b).elim b (fun cp => [cp]) := by
  cases h : decodeBlock b <;> simp [processBlock, h, Option.elim]

theorem decodeLoop_eq_flatMap : ∀ bs : List (List Nat),
    decodeLoop bs = (bs.filter (fun b => b ≠ [])).flatMap processBlock := by
  intro bs
  induction bs with
  | nil => rfl
  | cons b bs ih =>
    by_cases hb : b = []
    · subst hb
      simp only [decodeLoop, if_pos rfl, ih, List.filter_cons]
      simp
    · simp only [decodeLoop, if_neg hb, ih, List.filter_cons]
      simp [hb]

-- ==========================================
-- Inverse-map lemmas and range bounds
-- ==========================================

theorem indexOf_lt_of_mem : ∀ {l : List (List Nat)} {x : List Nat}, x ∈ l →
    List.indexOf x l < l.length := by
  intro l
  induction l with
  | nil => intro x hm; cases hm
  | cons y ys ih =>
    intro x hm
    rw [List.indexOf_cons, List.length_cons]
    cases he : (y == x) with
    | true => simp
    | false =>
      have hxy : x ≠ y := fun h => by simp [h] at he
      have hmem : x ∈ ys := by
        rcases List.mem_cons.mp hm with h1 | h1
        · exact absurd h1 hxy
        · exact h1
      have := ih hmem
      simp only [cond_false]
      omega

theorem INITIAL_MAP_some {x : List Nat} {o : Nat} (h : INITIAL_MAP x = some o) :
    o < 19 ∧ x ∈ INITIALS := by
  by_cases hc : INITIALS.contains x
  · rw [INITIAL_MAP, if_pos hc] at h
    have hm : x ∈ INITIALS := List.elem_iff.mp hc
    injection h with h
    subst h
    exact ⟨by rw [← INITIALS_length]; exact indexOf_lt_of_mem hm, hm⟩
  · rw [INITIAL_MAP, if_neg hc] at h
    cases h

theorem MEDIAL_MAP_some {x : List Nat} {n : Nat} (h : MEDIAL_MAP x = some n) :
    n < 21 ∧ x ∈ MEDIALS := by
  by_cases hc : MEDIALS.contains x
  · rw [MEDIAL_MAP, if_pos hc] at h
    have hm : x ∈ MEDIALS := List.elem_iff.mp hc
    injection h with h
    subst h
    exact ⟨by rw [← MEDIALS_length]; exact indexOf_lt_of_mem hm, hm⟩
  · rw [MEDIAL_MAP, if_neg hc] at h
    cases h

theorem FINAL_MAP_some {x : List Nat} {k : Nat} (h : FINAL_MAP x = some k) :
    k < 28 ∧ x ∈ FINALS := by
  by_cases hc : FINALS.contains x
  · rw [FINAL_MAP, if_pos hc] at h
    have hm : x ∈ FINALS := List.elem_iff.mp hc
    injection h with h
    subst h
    exact ⟨by rw [← FINALS_length]; exact indexOf_lt_of_mem hm, hm⟩
  · rw [FINAL_MAP, if_neg hc] at h
    cases h

theorem tryVowel_bounds {b v : List Nat} {cp : Nat}
    (h : tryVowel b v = some cp) : 44032 ≤ cp ∧ cp ≤ 55203 := by
  cases hf : findSub v b with
  | none => simp [tryVowel, hf] at h
  | some i =>
    simp only [tryVowel, hf] at h
    cases hI : INITIAL_MAP (b.take i) with
    | none => simp [hI] at h
    | some o =>
      cases hM : MEDIAL_MAP v with
      | none => simp [hI, hM] at h
      | some n =>
        cases hF : FINAL_MAP (b.drop (i + v.length)) with
        | none => simp [hI, hM, hF] at h
        | some k =>
          simp only [hI, hM, hF] at h
          injection h with h
          subst h
          have h1 := (INITIAL_MAP_some hI).1
          have h2 := (MEDIAL_MAP_some hM).1
          have h3 := (FINAL_MAP_some hF).1
          omega

theorem scanVowels_bounds : ∀ vs (b : List Nat) (cp : Nat),
    scanVowels b vs = some cp → 44032 ≤ cp ∧ cp ≤ 55203 := by
  intro vs
  induction vs with
  | nil => intro b cp h; cases h
  | cons v ws ih =>
    intro b cp h
    rw [scanVowels_cons] at h
    cases ht : tryVowel b v with
    | some cp2 =>
      simp only [ht] at h
      injection h with h
      subst h
      exact tryVowel_bounds ht
    | none =>
      simp only [ht] at h
      exact ih b cp h

theorem decodeBlock_bounds {b : List Nat} {cp : Nat} (h : decodeBlock b = some cp) :
    44032 ≤ cp ∧ cp ≤ 55203 :=
  scanVowels_bounds SORTED_MEDIALS b cp h

theorem decodeLoop_no_sep : ∀ bs : List (List Nat),
    (∀ b ∈ bs, 92 ∉ b) → 92 ∉ decodeLoop bs := by
  intro bs h
  induction bs with
  | nil => simp [decodeLoop]
  | cons b bs ih =>
    rw [decodeLoop]
    intro hm
    rcases List.mem_append.mp hm with h1 | h1
    · by_cases hb : b = []
      · rw [if_pos hb] at h1; cases h1
      · rw [if_neg hb] at h1
        cases hd : decodeBlock b with
        | some cp =>
          simp only [processBlock, hd] at h1
          have := (decodeBlock_bounds hd).1
          simp at h1
          omega
        | none =>
          simp only [processBlock, hd] at h1
          exact h b (List.mem_cons_self b bs) h1
    · exact ih (fun x hx => h x (List.mem_cons_of_mem b hx)) h1

-- ==========================================
-- The scan as find? over the sorted order (C4 refinement)
-- ==========================================

theorem tryVowel_eq_claim {b v : List Nat} (hv : v ∈ MEDIALS) :
    tryVowel b v = if validCand b v then some (recompose b v) else none := by
  cases hf : findSub v b with
  | none => simp [tryVowel, validCand, hf]
  | some i =>
    have hM : MEDIAL_MAP v = some (List.indexOf v MEDIALS) := by
      rw [MEDIAL_MAP, if_pos (List.elem_iff.mpr hv)]
    by_cases hI : INITIALS.contains (b.take i)
    · by_cases hF : FINALS.contains (b.drop (i + v.length))
      · have hI2 : b.take i ∈ INITIALS := List.elem_iff.mp hI
        have hF2 : b.drop (i + v.length) ∈ FINALS := List.elem_iff.mp hF
        simp [tryVowel, validCand, recompose, hf, hI, hF, hI2, hF2, hM,
          INITIAL_MAP, FINAL_MAP]
      · have hF2 : b.drop (i + v.length) ∉ FINALS := fun hm => hF (List.elem_iff.mpr hm)
        simp [tryVowel, validCand, hf, hI, hF, hF2, hM, INITIAL_MAP, FINAL_MAP]
    · have hI2 : b.take i ∉ INITIALS := fun hm => hI (List.elem_iff.mpr hm)
      simp [tryVowel, validCand, hf, hI, hI2, hM, INITIAL_MAP]

theorem scanVowels_eq_find : ∀ vs (b : List Nat), (∀ v ∈ vs, v ∈ MEDIALS) →
    scanVowels b vs = (vs.find? (validCand b)).map (recompose b) := by
  intro vs
  induction vs with
  | nil => intro b _; rfl
  | cons v ws ih =>
    intro b h
    rw [scanVowels_cons, tryVowel_eq_claim (h v (List.mem_cons_self v ws))]
    by_cases hp : validCand b v = true
    · rw [if_pos hp, List.find?_cons_of_pos _ hp]
      rfl
    · rw [if_neg hp, List.find?_cons_of_neg _ hp]
      exact ih b (fun w hw => h w (List.mem_cons_of_mem v hw))

theorem find?_first_sorted {p : List Nat → Bool} :
    ∀ l : List (List Nat), l.Pairwise (fun a b => b.length ≤ a.length) →
      ∀ v, l.find? p = some v → ∀ w ∈ l, p w = true → w.length ≤ v.length := by
  intro l hl
  induction l with
  | nil => intro v hv; cases hv
  | cons x xs ih =>
    intro v hv w hw hpw
    by_cases hx : p x = true
    · rw [List.find?_cons_of_pos _ hx] at hv
      injection hv with hv
      subst hv
      rcases List.mem_cons.mp hw with rfl | hw2
      · exact le_refl _
      · exact (List.pairwise_cons.mp hl).1 w hw2
    · rw [List.find?_cons_of_neg _ hx] at hv
      rcases List.mem_cons.mp hw with rfl | hw2
      · exact absurd hpw hx
      · exact ih (List.pairwise_cons.mp hl).2 v hv w hw2 hpw

-- ==========================================
-- join as intercalate (C3 refinement)
-- ==========================================

theorem joinSep_eq_intercalate : ∀ bs : List (List Nat),
    joinSep bs = List.intercalate [SEPARATOR] bs := by
  intro bs
  induction bs with
  | nil => simp [joinSep, List.intercalate]
  | cons b bs ih =>
    cases bs with
    | nil => simp [joinSep, List.intercalate, List.intersperse]
    | cons b2 rest =>
      rw [joinSep_cons (by simp), ih]
      simp [List.intercalate, List.intersperse_cons_cons, List.flatten_cons]

-- ==========================================
-- Quote stripping (C8)
-- ==========================================

theorem dropWhile_append_all {p : Nat → Bool} : ∀ q t : List Nat,
    (∀ c ∈ q, p c = true) → List.dropWhile p (q ++ t) = List.dropWhile p t := by
  intro q t h
  induction q with
  | nil => rfl
  | cons c rest ih =>
    rw [List.cons_append, List.dropWhile_cons, if_pos (h c (List.mem_cons_self c rest))]
    exact ih (fun x hx => h x (List.mem_cons_of_mem c hx))

theorem strip_append_quotes_left {q t : List Nat} (h : ∀ c ∈ q, isQuote c = true) :
    strip (q ++ t) = strip t := by
  rw [strip, strip, dropWhile_append_all q t h]

theorem strip_concat_quote {t : List Nat} {q : Nat} (hq : isQuote q = true) :
    strip (t ++ [q]) = strip t := by
  rw [strip, strip, List.dropWhile_append]
  by_cases he : (List.dropWhile isQuote t).isEmpty = true
  · rw [if_pos he]
    have h1 : List.dropWhile isQuote [q] = [] := by
      rw [List.dropWhile_cons, if_pos hq]
      rfl
    rw [List.isEmpty_iff] at he
    rw [h1, he]
  · rw [if_neg he]
    have h2 : (List.dropWhile isQuote t ++ [q]).reverse =
        q :: (List.dropWhile isQuote t).reverse := by
      rw [List.reverse_append]
      rfl
    rw [h2, List.dropWhile_cons, if_pos hq]

theorem strip_append_quotes_right : ∀ q t : List Nat,
    (∀ c ∈ q, isQuote c = true) → strip (t ++ q) = strip t := by
  intro q
  induction q using List.reverseRecOn with
  | nil => intro t _; simp
  | append_singleton q0 x ih =>
    intro t h
    have hx : isQuote x = true := h x (by simp)
    rw [show t ++ (q0 ++ [x]) = (t ++ q0) ++ [x] from (List.append_assoc t q0 [x]).symm]
    rw [strip_concat_quote hx]
    exact ih t (fun c hc => h c (by simp [hc]))

-- ==========================================
-- Non-empty block parsing (C7)
-- ==========================================

theorem replaceSpace_cons_space (v : List Nat) :
    replaceSpace (32 :: v) = 92 :: 32 :: 92 :: replaceSpace v := by
  rw [replaceSpace]
  simp

theorem replaceSpace_cons_sep (v : List Nat) :
    replaceSpace (92 :: v) = 92 :: replaceSpace v := by
  rw [replaceSpace]
  simp

theorem splitSep_space_sep (v : List Nat) :
    splitSep (32 :: 92 :: v) = [32] :: splitSep v := by
  rw [splitSep_cons_ne (by omega), splitSep_cons_sep]
  rfl

theorem nonEmptyBlocks_space (u v : List Nat) :
    nonEmptyBlocks (u ++ 32 :: v) = nonEmptyBlocks u ++ [32] :: nonEmptyBlocks v := by
  rw [nonEmptyBlocks, nonEmptyBlocks, nonEmptyBlocks, replaceSpace_append,
    replaceSpace_cons_space, splitSep_append_sep, splitSep_space_sep,
    List.filter_append, List.filter_cons]
  simp

theorem nonEmptyBlocks_sep (u v : List Nat) :
    nonEmptyBlocks (u ++ 92 :: v) = nonEmptyBlocks u ++ nonEmptyBlocks v := by
  rw [nonEmptyBlocks, nonEmptyBlocks, nonEmptyBlocks, replaceSpace_append,
    replaceSpace_cons_sep, splitSep_append_sep, List.filter_append]

theorem decode_eq_nonEmptyBlocks (t : List Nat) :
    decode t = (nonEmptyBlocks (strip t)).flatMap processBlock := by
  rw [decode, nonEmptyBlocks, decodeLoop_eq_flatMap]

-- ==========================================
-- Claim theorems
-- ==========================================

/-- Claim C1: for every string x all of whose characters lie in the syllabic
code-point range [U+AC00, U+D7A3], decode (encode x) = x. -/
theorem claim_C1_syllabic_roundtrip (x : List Nat)
    (h : ∀ c ∈ x, 44032 ≤ c ∧ c ≤ 55203) : decode (encode x) = x := by
  rw [decode]
  have hq : ∀ y ∈ encode x, isQuote y = false := by
    intro y hy
    rw [encode] at hy
    rcases mem_joinSep (x.map encodeChar) y hy with h92 | ⟨b, hb, hyb⟩
    · subst h92; decide
    · obtain ⟨c, hc, rfl⟩ := List.mem_map.mp hb
      exact (tokenChars_clean _
        (encodeChar_hangul_chars (h c hc).1 (h c hc).2 _ hyb)).2.2
  rw [strip_eq_self_of_all hq]
  apply roundtrip_core
  intro c hc
  have hb := h c hc
  refine ⟨by omega, ?_⟩
  intro hm
  fin_cases hm <;> omega

/-- Witness for C1 at the concrete two-syllable input 가힣. -/
theorem claim_C1_witness :
    (∀ c ∈ [44032, 55203], 44032 ≤ c ∧ c ≤ 55203) ∧
      decode (encode [44032, 55203]) = [44032, 55203] :=
  ⟨by decide, claim_C1_syllabic_roundtrip [44032, 55203] (by decide)⟩

/-- Claim C2 as stated is false: the letter a (code point 97) is a
passthrough character other than the separator, yet
decode (encode "a") = "아" (code point 50500), not "a". -/
theorem claim_C2_counterexample :
    decode (encode [97]) = [50500] ∧ decode (encode [97]) ≠ [97] := by decide

/-- Claim C2 amended: the round trip holds for strings of syllabic-range
characters and passthrough characters, provided passthrough characters
are not the separator and not one of the eight single-character nucleus
tokens (a, ä, u, è, o, ö, ü, i), and the first and last character of the
string are not quote characters. -/
theorem claim_C2_amended (s : List Nat)
    (h : ∀ c ∈ s, (44032 ≤ c ∧ c ≤ 55203) ∨ (c ≠ 92 ∧ c ∉ vowelSingles))
    (hh : ∀ c, s.head? = some c → isQuote c = false)
    (hl : ∀ c, s.getLast? = some c → isQuote c = false) :
    decode (encode s) = s := by
  rw [decode]
  have hHead : ∀ y, (encode s).head? = some y → isQuote y = false := by
    intro y hy
    cases s with
    | nil => cases hy
    | cons c s2 =>
      rw [encode_head? c s2] at hy
      by_cases hcH : 44032 ≤ c ∧ c ≤ 55203
      · exact (tokenChars_clean _
          (encodeChar_hangul_chars hcH.1 hcH.2 _ (head?_mem hy))).2.2
      · have he : encodeChar c = [c] := by rw [encodeChar, if_neg hcH]
        rw [he] at hy
        simp at hy
        subst hy
        exact hh c rfl
  have hLast : ∀ y, (encode s).getLast? = some y → isQuote y = false := by
    intro y hy
    cases hs : s with
    | nil => subst hs; simp [encode, joinSep] at hy
    | cons c s2 =>
      have hsne : s ≠ [] := by rw [hs]; simp
      obtain ⟨cl, hcl⟩ : ∃ cl, s.getLast? = some cl :=
        ⟨s.getLast hsne, List.getLast?_eq_getLast s hsne⟩
      rw [encode_getLast? s cl hcl] at hy
      by_cases hcH : 44032 ≤ cl ∧ cl ≤ 55203
      · exact (tokenChars_clean _
          (encodeChar_hangul_chars hcH.1 hcH.2 _
            (List.mem_of_mem_getLast? hy))).2.2
      · have he : encodeChar cl = [cl] := by rw [encodeChar, if_neg hcH]
        rw [he] at hy
        simp at hy
        subst hy
        exact hl cl hcl
  rw [strip_eq_self_of_ends hHead hLast]
  apply roundtrip_core
  intro c hc
  rcases h c hc with h1 | h2
  · refine ⟨by omega, ?_⟩
    intro hm
    fin_cases hm <;> omega
  · exact h2

/-- Witness for the amended C2 at the concrete input 가! (syllable plus
passthrough). -/
theorem claim_C2_witness :
    (∀ c ∈ [44032, 33], (44032 ≤ c ∧ c ≤ 55203) ∨ (c ≠ 92 ∧ c ∉ vowelSingles)) ∧
      decode (encode [44032, 33]) = [44032, 33] :=
  ⟨by decide, claim_C2_amended [44032, 33] (by decide) (by decide) (by decide)⟩

/-- Claim C3: encode maps each syllabic character to the block
Onset[(cp-0xAC00)/588] ++ Nucleus[((cp-0xAC00)%588)/28] ++ Coda[(cp-0xAC00)%28]
(truncating division), every other character to itself, and joins the blocks
with exactly one separator between consecutive blocks and none at the ends. -/
theorem claim_C3_encode_blocks (t : List Nat) :
    encode t = List.intercalate [SEPARATOR] (t.map claimBlockC3) := by
  have hcb : ∀ c, claimBlockC3 c = encodeChar c := by
    intro c
    rw [claimBlockC3, encodeChar]
    unfold onsetIdx nucleusIdx codaIdx
    by_cases h : 44032 ≤ c ∧ c ≤ 55203
    · rw [if_pos h, if_pos h, List.append_assoc]
    · rw [if_neg h, if_neg h]
  rw [encode, joinSep_eq_intercalate]
  congr 1
  exact List.map_congr_left (fun c _ => (hcb c).symm)

/-- Claim C4: the decoder scans the nucleus tokens in descending length
order with ties in original table order (the scan list is exactly the
medial table reordered), accepts the first candidate whose first-occurrence
partition has a valid onset prefix and coda suffix, recomposing
0xAC00 + onset*588 + nucleus*28 + coda; consequently the accepted candidate
is a longest valid one. -/
theorem claim_C4_greedy_scan :
    ((∀ v ∈ SORTED_MEDIALS, v ∈ MEDIALS) ∧ (∀ m ∈ MEDIALS, m ∈ SORTED_MEDIALS) ∧
      SORTED_MEDIALS.length = MEDIALS.length ∧
      SORTED_MEDIALS.Pairwise (fun a b => b.length ≤ a.length) ∧
      (∀ i ∈ List.range 21, ∀ j ∈ List.range 21, i < j →
        (SORTED_MEDIALS.getD i []).length = (SORTED_MEDIALS.getD j []).length →
        List.indexOf (SORTED_MEDIALS.getD i []) MEDIALS <
          List.indexOf (SORTED_MEDIALS.getD j []) MEDIALS)) ∧
    (∀ b : List Nat, b ≠ [] → decodeBlock b = claimDecodeC4 b) ∧
    (∀ b v : List Nat, SORTED_MEDIALS.find? (validCand b) = some v →
      ∀ w ∈ SORTED_MEDIALS, validCand b w = true → w.length ≤ v.length) := by
  refine ⟨by decide, ?_, ?_⟩
  · intro b _
    rw [decodeBlock, claimDecodeC4]
    exact scanVowels_eq_find SORTED_MEDIALS b mem_medials_of_mem_sorted
  · intro b v hv w hw hpw
    exact find?_first_sorted SORTED_MEDIALS (by decide) v hv w hw hpw

/-- Witness for C4 at the concrete block "ga". -/
theorem claim_C4_witness :
    decodeBlock [103, 97] = claimDecodeC4 [103, 97] ∧
      ([97] : List Nat).length ≤ ([97] : List Nat).length :=
  ⟨claim_C4_greedy_scan.2.1 [103, 97] (by decide),
   claim_C4_greedy_scan.2.2 [103, 97] [97] (by decide) [97] (by decide) (by decide)⟩

/-- Claim C5: decode is total by construction; its output is obtained by
dropping the empty blocks of the separator split and mapping every
remaining block either to its recomposed syllable or, when no nucleus
candidate validates, to the block itself unchanged. -/
theorem claim_C5_decode_total_passthrough (t : List Nat) :
    decode t = ((blocksOf t).filter (fun b => b ≠ [])).flatMap
      (fun b => (decodeBlock b).elim b (fun cp => [cp])) := by
  rw [decode, decodeLoop_eq_flatMap, blocksOf]
  congr 1
  funext b
  exact processBlock_eq_elim b

/-- Claim C6 as stated is false: encode "a!" is indeed "a\!", but decoding
it yields "아!" (the block "a" validates as the syllable U+C544 with empty
onset and coda), not "a!". -/
theorem claim_C6_counterexample :
    encode [97, 33] = [97, 92, 33] ∧ decode [97, 92, 33] = [50500, 33] ∧
      decode (encode [97, 33]) ≠ [97, 33] := by decide

/-- Claim C6 amended: encode "a!" = "a\!", and decode of that result is
"아!" (code points 50500, 33), because the block "a" decodes as a syllable. -/
theorem claim_C6_amended :
    encode [97, 33] = [97, 92, 33] ∧ decode [97, 92, 33] = [50500, 33] := by decide

/-- Claim C7 as stated is false: "a b" and "a\b" do not decode to the same
result — the space survives as its own passthrough block. -/
theorem claim_C7_counterexample :
    decode [97, 32, 98] = [50500, 32, 98] ∧ decode [97, 92, 98] = [50500, 98] ∧
      decode [97, 32, 98] ≠ decode [97, 92, 98] := by decide

/-- Claim C7 amended: a space is a block boundary exactly like the
separator except that it additionally contributes its own single-space
passthrough block, which decode keeps in the output; decode processes
exactly the non-empty blocks. -/
theorem claim_C7_amended :
    (∀ u v : List Nat,
      nonEmptyBlocks (u ++ 32 :: v) = nonEmptyBlocks u ++ [32] :: nonEmptyBlocks v ∧
      nonEmptyBlocks (u ++ 92 :: v) = nonEmptyBlocks u ++ nonEmptyBlocks v) ∧
    (∀ t : List Nat, decode t = (nonEmptyBlocks (strip t)).flatMap processBlock) :=
  ⟨fun u v => ⟨nonEmptyBlocks_space u v, nonEmptyBlocks_sep u v⟩,
   decode_eq_nonEmptyBlocks⟩

/-- Claim C8 as stated is false: decode strips every layer of enclosing
quotes, not just one; decode of the double-quoted text yields the decoded
syllable with no quote preserved, rather than the one-layer-stripped
passthrough. -/
theorem claim_C8_counterexample :
    decode [34, 34, 97, 34, 34] = [50500] ∧
      decode [34, 34, 97, 34, 34] ≠ [34, 97, 34] := by decide

/-- Claim C8 amended: the first step of decode removes all leading and all
trailing quote characters (in any combination of the two quote kinds), so
decoding is invariant under wrapping the input in any quote characters. -/
theorem claim_C8_amended (q1 s q2 : List Nat)
    (h1 : ∀ c ∈ q1, isQuote c = true) (h2 : ∀ c ∈ q2, isQuote c = true) :
    strip (q1 ++ s ++ q2) = strip s ∧ decode (q1 ++ s ++ q2) = decode s := by
  have hst : strip (q1 ++ s ++ q2) = strip s := by
    rw [List.append_assoc, strip_append_quotes_left h1, strip_append_quotes_right q2 s h2]
  exact ⟨hst, by rw [decode, decode, hst]⟩

/-- Witness for the amended C8 at the concrete input mixing both quote
kinds around the block "ga". -/
theorem claim_C8_witness :
    strip ([34, 39] ++ [103, 97] ++ [39]) = strip [103, 97] ∧
      decode ([34, 39] ++ [103, 97] ++ [39]) = decode [103, 97] :=
  claim_C8_amended [34, 39] [103, 97] [39] (by decide) (by decide)

/-- Claim C9: the decomposition indices of every syllabic code point are in
range for the three tables, and every code point reconstructed by the block
decoder from validated lookups lies in the syllabic range. -/
theorem claim_C9_index_bounds :
    (∀ cp : Nat, 44032 ≤ cp → cp ≤ 55203 →
      onsetIdx (cp - 44032) < INITIALS.length ∧
      nucleusIdx (cp - 44032) < MEDIALS.length ∧
      codaIdx (cp - 44032) < FINALS.length) ∧
    (∀ (b : List Nat) (cp : Nat), decodeBlock b = some cp →
      44032 ≤ cp ∧ cp ≤ 55203) := by
  constructor
  · intro cp h1 h2
    rw [INITIALS_length, MEDIALS_length, FINALS_length]
    unfold onsetIdx nucleusIdx codaIdx
    refine ⟨?_, ?_, ?_⟩ <;> omega
  · intro b cp h
    exact decodeBlock_bounds h

/-- Witness for C9 at the syllable 아 and the block "a". -/
theorem claim_C9_witness :
    (onsetIdx (50500 - 44032) < INITIALS.length ∧
      nucleusIdx (50500 - 44032) < MEDIALS.length ∧
      codaIdx (50500 - 44032) < FINALS.length) ∧
      (44032 ≤ 50500 ∧ 50500 ≤ 55203) :=
  ⟨claim_C9_index_bounds.1 50500 (by decide) (by decide),
   claim_C9_index_bounds.2 [97] 50500 (by decide)⟩

/-- Claim C10: the output of decode never contains the separator 92: each
emitted unit is either a reconstructed syllable (whose code point lies in
the syllabic range) or a separator-free fragment of the split. -/
theorem claim_C10_no_separator_output (t : List Nat) : 92 ∉ decode t := by
  rw [decode]
  exact decodeLoop_no_sep _ (splitSep_mem_no_sep _)

end KRR
